import Mathlib

/-!
Verification of the line-classification engine of `noisylogdetector.py`.

The program scans log lines and produces three lists of findings: noisy
logs, sensitive-data exposures, and severity violations.  We embed the
code shallowly: strings are `List Char`, the fixed regular expressions of
the source (the timestamp gate and the whole-word level search) become
executable recognizers, and a compiled sensitive pattern from the `re`
library is modelled abstractly by its match-at-a-position function, from
which the search and substitution operations of `re` are defined.
-/

/-- Whitespace characters as recognized by the regex class and by
Python string stripping, restricted to ASCII. -/
def isPySpace (c : Char) : Bool :=
  c = ' ' || c = '\t' || c = '\n' || c = '\r' || c = Char.ofNat 11 || c = Char.ofNat 12

/-- Word characters for the word-boundary assertion of the regex
library, restricted to ASCII. -/
def isWordChar (c : Char) : Bool :=
  c.isAlpha || c.isDigit || c = '_'

/-- Python `str.rstrip()` on a line: remove trailing whitespace. -/
def rstrip (cs : List Char) : List Char :=
  (cs.reverse.dropWhile isPySpace).reverse

/-- Python `str.lower()` on a line, restricted to ASCII. -/
def pyLower (cs : List Char) : List Char :=
  cs.map Char.toLower

/-- Python substring containment `needle in hay`. -/
def occursIn (w : List Char) : List Char → Bool
  | [] => w.isPrefixOf []
  | c :: rest => w.isPrefixOf (c :: rest) || occursIn w rest

/-! ### The timestamp gate

The source tests `re.match` of the pattern
`^\s*(\d\d:\d\d:\d\d(\.\d+)?|\d{4}-\d\d-\d\d\s+\d\d:\d\d:\d\d(\.\d+)?|(Jan|...|Dec)\s+\d{1,2}\s+\d\d:\d\d:\d\d)`.
Every alternative begins with a digit or a letter, so the leading `\s*`
necessarily consumes the maximal whitespace run, and inner `\s+` and
`\d{1,2}` atoms are likewise forced, which makes the following
deterministic recognizers equivalent to the regex. -/

/-- Consume one expected character. -/
def pChar (a : Char) : List Char → Option (List Char)
  | c :: rest => if c = a then some rest else none
  | [] => none

/-- Consume one digit. -/
def pDigit : List Char → Option (List Char)
  | c :: rest => if c.isDigit then some rest else none
  | [] => none

/-- Consume two digits. -/
def pDigit2 (cs : List Char) : Option (List Char) :=
  (pDigit cs).bind pDigit

/-- Consume four digits. -/
def pDigit4 (cs : List Char) : Option (List Char) :=
  (pDigit2 cs).bind pDigit2

/-- Consume `HH:MM:SS`. -/
def pTimeCore (cs : List Char) : Option (List Char) :=
  ((((pDigit2 cs).bind (pChar ':')).bind pDigit2).bind (pChar ':')).bind pDigit2

/-- Consume the optional fractional-second group `(\.\d+)?`. -/
def pFracOpt : List Char → Option (List Char)
  | '.' :: c :: rest =>
      if c.isDigit then some (List.dropWhile Char.isDigit rest)
      else some ('.' :: c :: rest)
  | cs => some cs

/-- Consume one or more whitespace characters, maximally. -/
def pSpaces1 : List Char → Option (List Char)
  | c :: rest => if isPySpace c then some (List.dropWhile isPySpace rest) else none
  | [] => none

/-- Consume `HH:MM:SS` with optional fractional seconds. -/
def pTime (cs : List Char) : Option (List Char) :=
  (pTimeCore cs).bind pFracOpt

/-- Consume `YYYY-MM-DD`. -/
def pDate (cs : List Char) : Option (List Char) :=
  ((((pDigit4 cs).bind (pChar '-')).bind pDigit2).bind (pChar '-')).bind pDigit2

/-- Consume the date-then-time alternative of the gate regex. -/
def pShapeB (cs : List Char) : Option (List Char) :=
  ((pDate cs).bind pSpaces1).bind pTime

/-- Consume a day-of-month, `\d{1,2}`, greedily. -/
def pDay : List Char → Option (List Char)
  | c :: d :: rest =>
      if c.isDigit then (if d.isDigit then some rest else some (d :: rest)) else none
  | [c] => if c.isDigit then some [] else none
  | [] => none

/-- The three-letter month abbreviations of the gate regex. -/
def monthNames : List (List Char) :=
  [String.toList "Jan", String.toList "Feb", String.toList "Mar",
   String.toList "Apr", String.toList "May", String.toList "Jun",
   String.toList "Jul", String.toList "Aug", String.toList "Sep",
   String.toList "Oct", String.toList "Nov", String.toList "Dec"]

/-- Consume a month abbreviation. -/
def pMonth : List Char → Option (List Char)
  | a :: b :: c :: rest => if monthNames.contains [a, b, c] then some rest else none
  | _ => none

/-- Consume the month-day-time alternative of the gate regex. -/
def pShapeC (cs : List Char) : Option (List Char) :=
  ((((pMonth cs).bind pSpaces1).bind pDay).bind pSpaces1).bind pTimeCore

/-- The timestamp gate of the source: does the line start, after optional
leading whitespace, with one of the three timestamp patterns? -/
def starts_with_date_and_timestamp (cs : List Char) : Bool :=
  (pTime (List.dropWhile isPySpace cs)).isSome
    || (pShapeB (List.dropWhile isPySpace cs)).isSome
    || (pShapeC (List.dropWhile isPySpace cs)).isSome

/-! ### Level detection

The source searches `re.search(rf"\b{lvl}\b", line)` for each level in a
fixed priority order.  Since every level token consists of word
characters, the pattern matches at a position exactly when the token
occurs there and both neighbours (when present) are not word characters. -/

/-- Does `w` match at the start of `cs` as the end of a whole word: `w`
is a prefix and the following character, if any, is not a word
character? -/
def wordAt : List Char → List Char → Bool
  | [], [] => true
  | [], c :: _ => !(isWordChar c)
  | _ :: _, [] => false
  | a :: w, c :: rest => a = c && wordAt w rest

/-- Scan `cs` for a whole-word occurrence of `w`; `prev` records whether
the preceding character was a word character. -/
def hasWholeWordAux (w : List Char) : Bool → List Char → Bool
  | prev, [] => !prev && wordAt w []
  | prev, c :: rest =>
      (!prev && wordAt w (c :: rest)) || hasWholeWordAux w (isWordChar c) rest

/-- `re.search(rf"\b{w}\b", cs)` for a token `w` of word characters. -/
def hasWholeWord (w : List Char) (cs : List Char) : Bool :=
  hasWholeWordAux w false cs

/-- The priority-ordered level tokens of `detect_level`. -/
def levelTokens : List (List Char) :=
  [String.toList "FATAL", String.toList "ERROR", String.toList "WARN",
   String.toList "INFO", String.toList "DEBUG", String.toList "TRACE"]

/-- The loop body of `detect_level`: return the first token of the list
with a whole-word occurrence in the line. -/
def detectFrom : List (List Char) → List Char → List Char
  | [], _ => String.toList "UNKNOWN"
  | lvl :: rest, line => if hasWholeWord lvl line then lvl else detectFrom rest line

/-- `detect_level` of the source. -/
def detect_level (line : List Char) : List Char :=
  detectFrom levelTokens line

/-! ### Sensitive patterns, search and substitution

A compiled pattern of the `re` library is modelled by the function
giving, for each suffix of the text, the length of the match the engine
prefers at that position (`none` when the pattern does not match there).
`re.search` scans positions left to right; `re.sub` replaces every
non-overlapping match, continuing after each replacement, and copies one
character past a zero-width match. -/

/-- Abstract model of a compiled sensitive pattern. -/
structure SensPattern where
  matchAt : List Char → Option Nat

/-- The literal replacement token of `redact_sensitive`. -/
def tokRED : List Char := String.toList "[REDACTED]"

/-- A pattern that is a literal string. -/
def litPat (w : List Char) : SensPattern :=
  ⟨fun cs => if w.isPrefixOf cs then some w.length else none⟩

/-- A benign literal pattern: nonempty and sharing no character with
the replacement token, so its matches cannot reach into inserted
tokens. -/
def goodLit (p : SensPattern) : Prop :=
  ∃ w, p = litPat w ∧ w ≠ [] ∧ ∀ c ∈ w, c ∉ tokRED

/-- Truthiness of `re.search`: does the pattern match at some position? -/
def pySearch (p : SensPattern) : List Char → Bool
  | [] => (p.matchAt []).isSome
  | c :: rest => (p.matchAt (c :: rest)).isSome || pySearch p rest

/-- Fuelled core of `re.sub(pattern, "[REDACTED]", text)`.  The fuel is
an upper bound on the text length, so the fallback clause is never
reached in `pySub`. -/
def pySubGo (p : SensPattern) : Nat → List Char → List Char
  | _, [] =>
      match p.matchAt [] with
      | some _ => tokRED
      | none => []
  | 0, c :: rest => c :: rest
  | fuel + 1, c :: rest =>
      match p.matchAt (c :: rest) with
      | none => c :: pySubGo p fuel rest
      | some 0 => tokRED ++ c :: pySubGo p fuel rest
      | some (k + 1) => tokRED ++ pySubGo p fuel (List.drop k rest)

/-- `re.sub(pattern, "[REDACTED]", text)`. -/
def pySub (p : SensPattern) (cs : List Char) : List Char :=
  pySubGo p cs.length cs

/-- `redact_sensitive` of the source: substitute every pattern in
configured order over the progressively redacted line. -/
def redact_sensitive (pats : List SensPattern) (line : List Char) : List Char :=
  pats.foldl (fun l p => pySub p l) line

/-! ### Rule set, findings and the analysis loop -/

/-- The validated rule structure consumed by `analyze`. -/
structure RuleSet where
  sensitive_patterns : List SensPattern
  failure_keywords : List (List Char)
  noisy_log_levels : List (List Char)
  required_severity_on_failure : List (List Char)

/-- One reported finding: line number, redacted text, and reason. -/
structure Finding where
  line : Nat
  log : List Char
  reason : List Char
deriving DecidableEq

/-- The reason string of a severity violation. -/
def severityReason (R : RuleSet) : List Char :=
  String.toList "Failure logged without required severity: "
    ++ List.intercalate (String.toList ", ") R.required_severity_on_failure

/-- The contributions of one line of the log to the three finding
lists: the noisy finding, the sensitive finding, and the severity
violation, each present or absent. -/
def lineFindings (R : RuleSet) (ln : Nat) (raw : List Char) :
    Option Finding × Option Finding × Option Finding :=
  let line := rstrip raw
  if starts_with_date_and_timestamp line then
    let level := detect_level line
    let red := redact_sensitive R.sensitive_patterns line
    ( if R.noisy_log_levels.contains level then
        some ⟨ln, red, String.toList "Noisy log level: " ++ level⟩
      else none,
      if R.sensitive_patterns.any (fun p => pySearch p line) then
        some ⟨ln, red, String.toList "Sensitive / PII data detected"⟩
      else none,
      if R.failure_keywords.any (fun k => occursIn k (pyLower line))
          && !(R.required_severity_on_failure.contains level) then
        some ⟨ln, red, severityReason R⟩
      else none )
  else (none, none, none)

/-- Lines paired with their 1-based numbers, as `enumerate(f, 1)`. -/
def enumLines : Nat → List (List Char) → List (Nat × List Char)
  | _, [] => []
  | n, x :: xs => (n, x) :: enumLines (n + 1) xs

/-- `analyze` of the source, over an already-split list of raw lines:
returns the lists of noisy logs, sensitive logs, and severity
violations, in encounter order. -/
def analyze (R : RuleSet) (lines : List (List Char)) :
    List Finding × List Finding × List Finding :=
  let e := enumLines 1 lines
  ( e.filterMap (fun q => (lineFindings R q.1 q.2).1),
    e.filterMap (fun q => (lineFindings R q.1 q.2).2.1),
    e.filterMap (fun q => (lineFindings R q.1 q.2).2.2) )

/-! ### Declarative description of the timestamp shapes (from the spec)

These predicates follow the wording of the specification: three
timestamp shapes anchored at the start of the line after optional
leading whitespace.  They are compared with the executable gate. -/

/-- `HH:MM:SS`: two digits, a colon, two digits, a colon, two digits. -/
def timeStr (t : List Char) : Prop :=
  ∃ h1 h2 m1 m2 s1 s2, t = [h1, h2, ':', m1, m2, ':', s1, s2] ∧
    h1.isDigit = true ∧ h2.isDigit = true ∧ m1.isDigit = true ∧
    m2.isDigit = true ∧ s1.isDigit = true ∧ s2.isDigit = true

/-- A fractional-second suffix: a dot followed by one or more digits. -/
def fracStr (u : List Char) : Prop :=
  ∃ ds, u = '.' :: ds ∧ ds ≠ [] ∧ ∀ c ∈ ds, c.isDigit = true

/-- One or more whitespace characters. -/
def spacesStr (w : List Char) : Prop :=
  w ≠ [] ∧ ∀ c ∈ w, isPySpace c = true

/-- Shape (a): `HH:MM:SS` with an optional fractional-second suffix. -/
def shapeA (p : List Char) : Prop :=
  ∃ t, timeStr t ∧ (p = t ∨ ∃ u, fracStr u ∧ p = t ++ u)

/-- `YYYY-MM-DD`. -/
def dateStr (d : List Char) : Prop :=
  ∃ y1 y2 y3 y4 a1 a2 b1 b2,
    d = [y1, y2, y3, y4, '-', a1, a2, '-', b1, b2] ∧
    y1.isDigit = true ∧ y2.isDigit = true ∧ y3.isDigit = true ∧
    y4.isDigit = true ∧ a1.isDigit = true ∧ a2.isDigit = true ∧
    b1.isDigit = true ∧ b2.isDigit = true

/-- Shape (b): a date, one or more spaces, then shape (a). -/
def shapeB (p : List Char) : Prop :=
  ∃ d w a, dateStr d ∧ spacesStr w ∧ shapeA a ∧ p = d ++ w ++ a

/-- A 1-2 digit day of month. -/
def dayStr (d : List Char) : Prop :=
  (∃ a, d = [a] ∧ a.isDigit = true) ∨
  (∃ a b, d = [a, b] ∧ a.isDigit = true ∧ b.isDigit = true)

/-- Shape (c): a month abbreviation, spaces, a 1-2 digit day, spaces,
and `HH:MM:SS`. -/
def shapeC (p : List Char) : Prop :=
  ∃ m w1 d w2 t, m ∈ monthNames ∧ spacesStr w1 ∧ dayStr d ∧
    spacesStr w2 ∧ timeStr t ∧ p = m ++ w1 ++ d ++ w2 ++ t

/-- The specification of the gate: after optional leading whitespace the
line starts with one of the three shapes. -/
def gateSpec (cs : List Char) : Prop :=
  ∃ ws p rest, cs = ws ++ p ++ rest ∧ (∀ c ∈ ws, isPySpace c = true) ∧
    (shapeA p ∨ shapeB p ∨ shapeC p)

/-! ### Characterizations of the gate parsers -/

theorem pChar_eq_some {a : Char} {cs r : List Char} :
    pChar a cs = some r ↔ cs = a :: r := by
  cases cs with
  | nil => simp [pChar]
  | cons c rest =>
    constructor
    · intro hsome
      have hca : c = a := by
        by_contra hne
        simp [pChar, hne] at hsome
      subst hca
      simp [pChar] at hsome
      rw [hsome]
    · intro h
      injection h with h1 h2
      subst h1; subst h2
      simp [pChar]

theorem pDigit_eq_some {cs r : List Char} :
    pDigit cs = some r ↔ ∃ c, cs = c :: r ∧ c.isDigit = true := by
  cases cs with
  | nil => simp [pDigit]
  | cons c rest =>
    constructor
    · intro hsome
      have hd : c.isDigit = true := by
        by_contra hne
        simp [pDigit, hne] at hsome
      simp [pDigit, hd] at hsome
      exact ⟨c, by rw [hsome], hd⟩
    · rintro ⟨c', hce, hd⟩
      injection hce with h1 h2
      subst h1; subst h2
      simp [pDigit, hd]

theorem pDigit2_eq_some {cs r : List Char} :
    pDigit2 cs = some r ↔
      ∃ a b, cs = a :: b :: r ∧ a.isDigit = true ∧ b.isDigit = true := by
  constructor
  · intro h
    obtain ⟨r1, h1, h2⟩ := Option.bind_eq_some.mp h
    obtain ⟨a, rfl, ha⟩ := pDigit_eq_some.mp h1
    obtain ⟨b, rfl, hb⟩ := pDigit_eq_some.mp h2
    exact ⟨a, b, rfl, ha, hb⟩
  · rintro ⟨a, b, rfl, ha, hb⟩
    simp [pDigit2, pDigit, ha, hb]

theorem pTimeCore_eq_some {cs r : List Char} :
    pTimeCore cs = some r ↔ ∃ t, timeStr t ∧ cs = t ++ r := by
  constructor
  · intro h
    obtain ⟨r4, h45, h5⟩ := Option.bind_eq_some.mp h
    obtain ⟨r3, h34, h4⟩ := Option.bind_eq_some.mp h45
    obtain ⟨r2, h23, h3⟩ := Option.bind_eq_some.mp h34
    obtain ⟨r1, h1, h2⟩ := Option.bind_eq_some.mp h23
    obtain ⟨a, b, rfl, ha, hb⟩ := pDigit2_eq_some.mp h1
    rw [pChar_eq_some] at h2
    obtain ⟨c, d, h2', hc, hd⟩ := pDigit2_eq_some.mp h3
    rw [pChar_eq_some] at h4
    obtain ⟨e, f, h4', he, hf⟩ := pDigit2_eq_some.mp h5
    refine ⟨[a, b, ':', c, d, ':', e, f], ⟨a, b, c, d, e, f, rfl, ha, hb, hc, hd, he, hf⟩, ?_⟩
    simp [h2, h2', h4, h4']
  · rintro ⟨t, ⟨a, b, c, d, e, f, rfl, ha, hb, hc, hd, he, hf⟩, rfl⟩
    simp [pTimeCore, pDigit2, pDigit, pChar, ha, hb, hc, hd, he, hf]

theorem pFracOpt_isSome (cs : List Char) : (pFracOpt cs).isSome = true := by
  unfold pFracOpt
  split
  · split <;> simp
  · simp

theorem pTime_isSome_iff {cs : List Char} :
    (pTime cs).isSome = true ↔ ∃ t r, timeStr t ∧ cs = t ++ r := by
  constructor
  · intro h
    obtain ⟨r, hr⟩ := Option.isSome_iff_exists.mp h
    obtain ⟨r1, h1, _⟩ := Option.bind_eq_some.mp hr
    obtain ⟨t, ht, rfl⟩ := pTimeCore_eq_some.mp h1
    exact ⟨t, r1, ht, rfl⟩
  · rintro ⟨t, r, ht, rfl⟩
    have h1 : pTimeCore (t ++ r) = some r := pTimeCore_eq_some.mpr ⟨t, ht, rfl⟩
    unfold pTime
    rw [h1]
    simpa using pFracOpt_isSome r

theorem pDate_eq_some {cs r : List Char} :
    pDate cs = some r ↔ ∃ d, dateStr d ∧ cs = d ++ r := by
  constructor
  · intro h
    obtain ⟨r4, h45, h5⟩ := Option.bind_eq_some.mp h
    obtain ⟨r3, h34, h4⟩ := Option.bind_eq_some.mp h45
    obtain ⟨r2, h23, h3⟩ := Option.bind_eq_some.mp h34
    obtain ⟨r1, h1, h2⟩ := Option.bind_eq_some.mp h23
    obtain ⟨r0, h0, h0'⟩ := Option.bind_eq_some.mp h1
    obtain ⟨a, b, rfl, ha, hb⟩ := pDigit2_eq_some.mp h0
    obtain ⟨c, d, h0'', hc, hd⟩ := pDigit2_eq_some.mp h0'
    rw [pChar_eq_some] at h2
    obtain ⟨e, f, h3', he, hf⟩ := pDigit2_eq_some.mp h3
    rw [pChar_eq_some] at h4
    obtain ⟨g, i, h5', hg, hi⟩ := pDigit2_eq_some.mp h5
    refine ⟨[a, b, c, d, '-', e, f, '-', g, i],
      ⟨a, b, c, d, e, f, g, i, rfl, ha, hb, hc, hd, he, hf, hg, hi⟩, ?_⟩
    simp [h0'', h2, h3', h4, h5']
  · rintro ⟨d, ⟨a, b, c, d', e, f, g, i, rfl, ha, hb, hc, hd', he, hf, hg, hi⟩, rfl⟩
    simp [pDate, pDigit4, pDigit2, pDigit, pChar, ha, hb, hc, hd', he, hf, hg, hi]

theorem dropWhile_eq_of_prepend {w z : List Char}
    (hw : ∀ c ∈ w, isPySpace c = true)
    (hz : ∀ c rest, z = c :: rest → isPySpace c = false) :
    List.dropWhile isPySpace (w ++ z) = z := by
  induction w with
  | nil =>
    simp only [List.nil_append]
    cases z with
    | nil => rfl
    | cons c rest => simp [List.dropWhile, hz c rest rfl]
  | cons c w' ih =>
    have hc : isPySpace c = true := hw c (List.mem_cons_self c w')
    simp only [List.cons_append, List.dropWhile, hc]
    exact ih (fun a ha => hw a (List.mem_cons_of_mem c ha))

theorem pSpaces1_eq_some_of {w z : List Char} (hw : spacesStr w)
    (hz : ∀ c rest, z = c :: rest → isPySpace c = false) :
    pSpaces1 (w ++ z) = some z := by
  obtain ⟨hne, hsp⟩ := hw
  cases w with
  | nil => exact absurd rfl hne
  | cons c w' =>
    have hc : isPySpace c = true := hsp c (List.mem_cons_self c w')
    simp only [List.cons_append, pSpaces1, hc, if_pos]
    rw [dropWhile_eq_of_prepend (fun a ha => hsp a (List.mem_cons_of_mem c ha)) hz]

theorem pSpaces1_eq_some {cs r : List Char} (h : pSpaces1 cs = some r) :
    ∃ w, spacesStr w ∧ cs = w ++ r := by
  cases cs with
  | nil => simp [pSpaces1] at h
  | cons c rest =>
    have hc : isPySpace c = true := by
      by_contra hne
      simp [pSpaces1, hne] at h
    simp [pSpaces1, hc] at h
    refine ⟨c :: rest.takeWhile isPySpace, ⟨by simp, ?_⟩, ?_⟩
    · intro a ha
      rcases List.mem_cons.mp ha with rfl | ha'
      · exact hc
      · exact List.mem_takeWhile_imp ha'
    · rw [← h]
      simp [List.takeWhile_append_dropWhile]

theorem pDay_eq_some {cs r : List Char} (h : pDay cs = some r) :
    ∃ d, dayStr d ∧ cs = d ++ r := by
  match cs with
  | [] => simp [pDay] at h
  | [c] =>
    have hc : c.isDigit = true := by
      by_contra hne
      simp [pDay, hne] at h
    simp [pDay, hc] at h
    exact ⟨[c], Or.inl ⟨c, rfl, hc⟩, by simp [← h]⟩
  | c :: d :: rest =>
    have hc : c.isDigit = true := by
      by_contra hne
      simp [pDay, hne] at h
    by_cases hd : d.isDigit
    · simp [pDay, hc, hd] at h
      exact ⟨[c, d], Or.inr ⟨c, d, rfl, hc, hd⟩, by simp [← h]⟩
    · simp [pDay, hc, hd] at h
      exact ⟨[c], Or.inl ⟨c, rfl, hc⟩, by simp [← h]⟩

theorem pDay_eq_some_of {d z : List Char} (hd : dayStr d)
    (hz : ∀ c rest, z = c :: rest → c.isDigit = false) :
    pDay (d ++ z) = some z := by
  rcases hd with ⟨a, rfl, ha⟩ | ⟨a, b, rfl, ha, hb⟩
  · cases z with
    | nil => simp [pDay, ha]
    | cons c rest => simp [pDay, ha, hz c rest rfl]
  · cases z with
    | nil => simp [pDay, ha, hb]
    | cons c rest => simp [pDay, ha, hb]

theorem pMonth_eq_some {cs r : List Char} (h : pMonth cs = some r) :
    ∃ m, m ∈ monthNames ∧ cs = m ++ r := by
  match cs with
  | [] => simp [pMonth] at h
  | [a] => simp [pMonth] at h
  | [a, b] => simp [pMonth] at h
  | a :: b :: c :: rest =>
    simp [pMonth] at h
    exact ⟨[a, b, c], h.1, by simp [h.2]⟩

theorem pMonth_eq_some_of {m z : List Char} (hm : m ∈ monthNames) :
    pMonth (m ++ z) = some z := by
  fin_cases hm <;> simp [pMonth] <;> decide

theorem pySpace_not_digit {c : Char} (h : isPySpace c = true) : c.isDigit = false := by
  simp [isPySpace] at h
  rcases h with ((((rfl | rfl) | rfl) | rfl) | rfl) | rfl <;> decide

theorem digit_not_pySpace {c : Char} (h : c.isDigit = true) : isPySpace c = false := by
  cases hx : isPySpace c
  · rfl
  · rw [pySpace_not_digit hx] at h
    cases h

theorem shape_head {p : List Char} (h : shapeA p ∨ shapeB p ∨ shapeC p) :
    ∃ c z, p = c :: z ∧ isPySpace c = false := by
  rcases h with ⟨t, ht, hp⟩ | ⟨d, w, a, hd, hw, ha, rfl⟩ | hC
  · obtain ⟨a1, a2, m1, m2, s1, s2, rfl, ha1, _⟩ := ht
    rcases hp with rfl | ⟨u, _, rfl⟩
    · exact ⟨a1, _, rfl, digit_not_pySpace ha1⟩
    · exact ⟨a1, _, rfl, digit_not_pySpace ha1⟩
  · obtain ⟨y1, y2, y3, y4, b1, b2, c1, c2, rfl, hy1, _⟩ := hd
    exact ⟨y1, _, rfl, digit_not_pySpace hy1⟩
  · obtain ⟨m, w1, d, w2, t, hm, _, _, _, _, rfl⟩ := hC
    fin_cases hm <;> exact ⟨_, _, rfl, by decide⟩

theorem gate_of_spec {cs : List Char} (h : gateSpec cs) :
    starts_with_date_and_timestamp cs = true := by
  obtain ⟨ws, p, rest, rfl, hws, hshape⟩ := h
  obtain ⟨c, z, rfl, hcns⟩ := shape_head hshape
  have hq : List.dropWhile isPySpace (ws ++ (c :: z) ++ rest) = (c :: z) ++ rest := by
    rw [List.append_assoc]
    exact dropWhile_eq_of_prepend hws
      (fun a r har => by injection har with h1 _; rw [← h1]; exact hcns)
  unfold starts_with_date_and_timestamp
  rw [hq]
  rw [Bool.or_eq_true, Bool.or_eq_true]
  rcases hshape with ⟨t, ht, hp⟩ | ⟨d, w, a, hd, hw, ha, heq⟩ | hC
  · have hsome : (pTime ((c :: z) ++ rest)).isSome = true := by
      rcases hp with heq' | ⟨u, _, heq'⟩ <;> rw [heq']
      · exact pTime_isSome_iff.mpr ⟨t, rest, ht, rfl⟩
      · exact pTime_isSome_iff.mpr ⟨t, u ++ rest, ht, by simp⟩
    exact Or.inl (Or.inl hsome)
  · have hBsome : (pShapeB ((c :: z) ++ rest)).isSome = true := by
      rw [heq]
      obtain ⟨c', z', rfl, hns'⟩ := shape_head (Or.inl ha)
      have h1 : pDate (d ++ (w ++ ((c' :: z') ++ rest))) = some (w ++ ((c' :: z') ++ rest)) :=
        pDate_eq_some.mpr ⟨d, hd, rfl⟩
      have h2 : pSpaces1 (w ++ ((c' :: z') ++ rest)) = some ((c' :: z') ++ rest) :=
        pSpaces1_eq_some_of hw
          (fun x r hxr => by injection hxr with hx _; rw [← hx]; exact hns')
      have h3 : (pTime ((c' :: z') ++ rest)).isSome = true := by
        obtain ⟨t, ht, hp⟩ := ha
        rcases hp with heq' | ⟨u, _, heq'⟩
        · exact pTime_isSome_iff.mpr ⟨t, rest, ht, by rw [heq']⟩
        · exact pTime_isSome_iff.mpr ⟨t, u ++ rest, ht, by rw [heq']; simp⟩
      unfold pShapeB
      simp only [List.append_assoc] at h1 ⊢
      rw [h1, Option.some_bind, h2, Option.some_bind]
      simpa using h3
    exact Or.inl (Or.inr hBsome)
  · obtain ⟨m, w1, d, w2, t, hm, hw1, hd, hw2, ht, heq⟩ := hC
    have hCsome : (pShapeC ((c :: z) ++ rest)).isSome = true := by
      rw [heq]
      obtain ⟨hne1, hsp1⟩ := hw1
      obtain ⟨hne2, hsp2⟩ := hw2
      have hdayhead : ∃ a zz, d ++ (w2 ++ (t ++ rest)) = a :: zz ∧ a.isDigit = true := by
        rcases hd with ⟨a, rfl, ha⟩ | ⟨a, b, rfl, ha, hb⟩
        · exact ⟨a, _, rfl, ha⟩
        · exact ⟨a, _, rfl, ha⟩
      obtain ⟨thead, tz, hteq, hthead⟩ :
          ∃ a zz, t ++ rest = a :: zz ∧ a.isDigit = true := by
        obtain ⟨a1, a2, m1, m2, s1, s2, rfl, ha1, _⟩ := ht
        exact ⟨a1, _, rfl, ha1⟩
      have h1 : pMonth (m ++ (w1 ++ (d ++ (w2 ++ (t ++ rest))))) =
          some (w1 ++ (d ++ (w2 ++ (t ++ rest)))) := pMonth_eq_some_of hm
      have h2 : pSpaces1 (w1 ++ (d ++ (w2 ++ (t ++ rest)))) = some (d ++ (w2 ++ (t ++ rest))) := by
        obtain ⟨a, zz, hde, hdig⟩ := hdayhead
        refine pSpaces1_eq_some_of ⟨hne1, hsp1⟩ (fun x r hxr => ?_)
        rw [hde] at hxr
        injection hxr with hx _
        rw [← hx]
        exact digit_not_pySpace hdig
      have hw2head : ∃ x xz, w2 = x :: xz ∧ isPySpace x = true := by
        cases w2 with
        | nil => exact absurd rfl hne2
        | cons x xz => exact ⟨x, xz, rfl, hsp2 x (List.mem_cons_self x xz)⟩
      have h3 : pDay (d ++ (w2 ++ (t ++ rest))) = some (w2 ++ (t ++ rest)) := by
        obtain ⟨x, xz, rfl, hx⟩ := hw2head
        exact pDay_eq_some_of hd
          (fun y r hyr => by injection hyr with hy _; rw [← hy]; exact pySpace_not_digit hx)
      have h4 : pSpaces1 (w2 ++ (t ++ rest)) = some (t ++ rest) := by
        refine pSpaces1_eq_some_of ⟨hne2, hsp2⟩ (fun x r hxr => ?_)
        rw [hteq] at hxr
        injection hxr with hx _
        rw [← hx]
        exact digit_not_pySpace hthead
      have h5 : pTimeCore (t ++ rest) = some rest := pTimeCore_eq_some.mpr ⟨t, ht, rfl⟩
      unfold pShapeC
      simp only [List.append_assoc] at h1 ⊢
      rw [h1, Option.some_bind, h2, Option.some_bind, h3, Option.some_bind, h4,
        Option.some_bind, h5]
      rfl
    exact Or.inr hCsome

theorem spec_of_gate {cs : List Char} (h : starts_with_date_and_timestamp cs = true) :
    gateSpec cs := by
  have hsplit : cs = List.takeWhile isPySpace cs ++ List.dropWhile isPySpace cs :=
    (List.takeWhile_append_dropWhile ..).symm
  have hws : ∀ c ∈ List.takeWhile isPySpace cs, isPySpace c = true :=
    fun c hc => List.mem_takeWhile_imp hc
  unfold starts_with_date_and_timestamp at h
  rw [Bool.or_eq_true, Bool.or_eq_true] at h
  rcases h with (h | h) | h
  · obtain ⟨t, r, ht, hq⟩ := pTime_isSome_iff.mp h
    refine ⟨List.takeWhile isPySpace cs, t, r, ?_, hws, Or.inl ⟨t, ht, Or.inl rfl⟩⟩
    conv_lhs => rw [hsplit]
    rw [hq]
    simp [List.append_assoc]
  · obtain ⟨v, hv⟩ := Option.isSome_iff_exists.mp h
    obtain ⟨r1, hd1, hPT⟩ := Option.bind_eq_some.mp hv
    obtain ⟨r0, hdq, hsp⟩ := Option.bind_eq_some.mp hd1
    obtain ⟨d, hd, hq0⟩ := pDate_eq_some.mp hdq
    obtain ⟨w, hw, hr0⟩ := pSpaces1_eq_some hsp
    have hts : (pTime r1).isSome = true := by rw [hPT]; rfl
    obtain ⟨t, r2, ht, hr1⟩ := pTime_isSome_iff.mp hts
    refine ⟨List.takeWhile isPySpace cs, d ++ w ++ t, r2, ?_, hws,
      Or.inr (Or.inl ⟨d, w, t, hd, hw, ⟨t, ht, Or.inl rfl⟩, rfl⟩)⟩
    conv_lhs => rw [hsplit]
    rw [hq0, hr0, hr1]
    simp [List.append_assoc]
  · obtain ⟨v, hv⟩ := Option.isSome_iff_exists.mp h
    obtain ⟨r3, h3', hTC⟩ := Option.bind_eq_some.mp hv
    obtain ⟨r2, h2', hsp2⟩ := Option.bind_eq_some.mp h3'
    obtain ⟨r1, h1', hday⟩ := Option.bind_eq_some.mp h2'
    obtain ⟨r0, hmq, hsp1⟩ := Option.bind_eq_some.mp h1'
    obtain ⟨m, hm, hq0⟩ := pMonth_eq_some hmq
    obtain ⟨w1, hw1, hr0⟩ := pSpaces1_eq_some hsp1
    obtain ⟨d, hd, hr1⟩ := pDay_eq_some hday
    obtain ⟨w2, hw2, hr2⟩ := pSpaces1_eq_some hsp2
    obtain ⟨t, ht, hr3⟩ := pTimeCore_eq_some.mp hTC
    refine ⟨List.takeWhile isPySpace cs, m ++ w1 ++ d ++ w2 ++ t, v, ?_, hws,
      Or.inr (Or.inr ⟨m, w1, d, w2, t, hm, hw1, hd, hw2, ht, rfl⟩)⟩
    conv_lhs => rw [hsplit]
    rw [hq0, hr0, hr1, hr2, hr3]
    simp [List.append_assoc]

/-- Claim C8: the timestamp gate returns true exactly for lines that,
after optional leading whitespace, start with one of the three timestamp
shapes, and a blank or whitespace-only line never passes the gate. -/
theorem c8_gate_characterization (cs : List Char) :
    (starts_with_date_and_timestamp cs = true ↔ gateSpec cs) ∧
    ((∀ c ∈ cs, isPySpace c = true) → starts_with_date_and_timestamp cs = false) := by
  constructor
  · exact ⟨spec_of_gate, gate_of_spec⟩
  · intro hall
    cases hx : starts_with_date_and_timestamp cs
    · rfl
    · exfalso
      obtain ⟨ws, p, rest, heq, hws2, hshape⟩ := spec_of_gate hx
      obtain ⟨c, z, rfl, hcns⟩ := shape_head hshape
      have hmem : c ∈ cs := by rw [heq]; simp
      rw [hall c hmem] at hcns
      cases hcns

/-- Witness for C8: a whitespace-only line fails the gate. -/
theorem c8_gate_characterization_witness :
    starts_with_date_and_timestamp (String.toList "   ") = false :=
  (c8_gate_characterization (String.toList "   ")).2 (by decide)

/-! ### Properties of level detection -/

theorem wordAt_isPrefixOf {w cs : List Char} (h : wordAt w cs = true) :
    w.isPrefixOf cs = true := by
  induction w generalizing cs with
  | nil => simp
  | cons a w' ih =>
    cases cs with
    | nil => simp [wordAt] at h
    | cons c rest =>
      simp only [wordAt, Bool.and_eq_true] at h
      obtain ⟨hac, hw⟩ := h
      have : a = c := by simpa using hac
      simp [List.isPrefixOf, this, ih hw]

theorem hasWholeWordAux_occurs {w : List Char} :
    ∀ (cs : List Char) (prev : Bool), hasWholeWordAux w prev cs = true →
      occursIn w cs = true := by
  intro cs
  induction cs with
  | nil =>
    intro prev h
    simp only [hasWholeWordAux, Bool.and_eq_true] at h
    simp [occursIn, wordAt_isPrefixOf h.2]
  | cons c rest ih =>
    intro prev h
    simp only [hasWholeWordAux, Bool.or_eq_true, Bool.and_eq_true] at h
    rcases h with ⟨_, hword⟩ | hrec
    · simp [occursIn, wordAt_isPrefixOf hword]
    · simp [occursIn, ih (isWordChar c) hrec]

theorem detectFrom_unknown {L : List (List Char)} {line : List Char}
    (h : ∀ lvl ∈ L, hasWholeWord lvl line = false) :
    detectFrom L line = String.toList "UNKNOWN" := by
  induction L with
  | nil => rfl
  | cons lvl rest ih =>
    simp only [detectFrom, h lvl (List.mem_cons_self lvl rest)]
    exact ih (fun x hx => h x (List.mem_cons_of_mem lvl hx))

/-- Claim C9: level detection is case-sensitive; a line that contains no
exact uppercase level token as a substring is classified UNKNOWN. -/
theorem c9_case_sensitive (line : List Char)
    (h : ∀ lvl ∈ levelTokens, occursIn lvl line = false) :
    detect_level line = String.toList "UNKNOWN" := by
  refine detectFrom_unknown (fun lvl hl => ?_)
  cases hx : hasWholeWord lvl line
  · rfl
  · exfalso
    have hocc : occursIn lvl line = true := hasWholeWordAux_occurs line false hx
    rw [h lvl hl] at hocc
    cases hocc

/-- Witness for C9: a line containing only `Error` and `error` is
classified UNKNOWN. -/
theorem c9_case_sensitive_witness :
    detect_level (String.toList "12:00:00 Error: disk error, failure") =
      String.toList "UNKNOWN" :=
  c9_case_sensitive _ (by decide)

/-- Counterexample to claim C3 as stated: a line containing INFO and
ERROR as whole words but also FATAL is classified FATAL, not ERROR. -/
theorem c3_counterexample :
    hasWholeWord (String.toList "INFO")
        (String.toList "04:31:14 FATAL ERROR INFO") = true ∧
    hasWholeWord (String.toList "ERROR")
        (String.toList "04:31:14 FATAL ERROR INFO") = true ∧
    detect_level (String.toList "04:31:14 FATAL ERROR INFO") ≠
      String.toList "ERROR" := by
  refine ⟨by decide, by decide, by decide⟩

/-- Claim C3 (amended): `detect_level` returns the first token of the
sequence FATAL, ERROR, WARN, INFO, DEBUG, TRACE with a whole-word
occurrence in the line, UNKNOWN when none occurs; a line containing both
INFO and ERROR as whole words but not FATAL is classified ERROR. -/
theorem c3_detect_level_priority (line : List Char) :
    (detect_level line = String.toList "FATAL" ↔
      hasWholeWord (String.toList "FATAL") line = true) ∧
    (detect_level line = String.toList "ERROR" ↔
      (hasWholeWord (String.toList "ERROR") line = true ∧
       hasWholeWord (String.toList "FATAL") line = false)) ∧
    (detect_level line = String.toList "WARN" ↔
      (hasWholeWord (String.toList "WARN") line = true ∧
       hasWholeWord (String.toList "FATAL") line = false ∧
       hasWholeWord (String.toList "ERROR") line = false)) ∧
    (detect_level line = String.toList "INFO" ↔
      (hasWholeWord (String.toList "INFO") line = true ∧
       hasWholeWord (String.toList "FATAL") line = false ∧
       hasWholeWord (String.toList "ERROR") line = false ∧
       hasWholeWord (String.toList "WARN") line = false)) ∧
    (detect_level line = String.toList "DEBUG" ↔
      (hasWholeWord (String.toList "DEBUG") line = true ∧
       hasWholeWord (String.toList "FATAL") line = false ∧
       hasWholeWord (String.toList "ERROR") line = false ∧
       hasWholeWord (String.toList "WARN") line = false ∧
       hasWholeWord (String.toList "INFO") line = false)) ∧
    (detect_level line = String.toList "TRACE" ↔
      (hasWholeWord (String.toList "TRACE") line = true ∧
       hasWholeWord (String.toList "FATAL") line = false ∧
       hasWholeWord (String.toList "ERROR") line = false ∧
       hasWholeWord (String.toList "WARN") line = false ∧
       hasWholeWord (String.toList "INFO") line = false ∧
       hasWholeWord (String.toList "DEBUG") line = false)) ∧
    (detect_level line = String.toList "UNKNOWN" ↔
      ∀ lvl ∈ levelTokens, hasWholeWord lvl line = false) ∧
    (hasWholeWord (String.toList "INFO") line = true →
     hasWholeWord (String.toList "ERROR") line = true →
     hasWholeWord (String.toList "FATAL") line = false →
     detect_level line = String.toList "ERROR") := by
  by_cases h1 : hasWholeWord (String.toList "FATAL") line = true <;>
  by_cases h2 : hasWholeWord (String.toList "ERROR") line = true <;>
  by_cases h3 : hasWholeWord (String.toList "WARN") line = true <;>
  by_cases h4 : hasWholeWord (String.toList "INFO") line = true <;>
  by_cases h5 : hasWholeWord (String.toList "DEBUG") line = true <;>
  by_cases h6 : hasWholeWord (String.toList "TRACE") line = true <;>
  simp_all [detect_level, detectFrom, levelTokens]

/-- Witness for C3: a line with ERROR and INFO but no FATAL is
classified ERROR. -/
theorem c3_detect_level_priority_witness :
    detect_level (String.toList "04:31:14 ERROR INFO") = String.toList "ERROR" :=
  (c3_detect_level_priority
    (String.toList "04:31:14 ERROR INFO")).2.2.2.2.2.2.2 (by decide) (by decide) (by decide)

/-! ### The per-line contributions inside `analyze` -/

theorem lineFindings_fields {R : RuleSet} {ln : Nat} {raw : List Char} {fd : Finding}
    (h : (lineFindings R ln raw).1 = some fd ∨ (lineFindings R ln raw).2.1 = some fd ∨
      (lineFindings R ln raw).2.2 = some fd) :
    fd.line = ln ∧ fd.log = redact_sensitive R.sensitive_patterns (rstrip raw) := by
  by_cases hg : starts_with_date_and_timestamp (rstrip raw) = true
  · simp only [lineFindings, hg, if_true] at h
    rcases h with h | h | h <;> split at h <;>
      first
        | exact Option.noConfusion h
        | (rw [← Option.some.inj h]; exact ⟨rfl, rfl⟩)
  · simp only [lineFindings, hg, if_false, Bool.false_eq_true] at h
    rcases h with h | h | h <;> cases h

theorem lineFindings_gate_false {R : RuleSet} {ln : Nat} {raw : List Char}
    (hg : starts_with_date_and_timestamp (rstrip raw) = false) :
    lineFindings R ln raw = (none, none, none) := by
  simp [lineFindings, hg]

theorem mem_filterMap_enumLines_ge (f : Nat × List Char → Option Finding)
    (hf : ∀ ln raw fd, f (ln, raw) = some fd → fd.line = ln) :
    ∀ (xs : List (List Char)) (s : Nat) (fd : Finding),
      fd ∈ List.filterMap f (enumLines s xs) → s ≤ fd.line := by
  intro xs
  induction xs with
  | nil => intro s fd h; simp [enumLines] at h
  | cons x xs' ih =>
    intro s fd h
    simp only [enumLines] at h
    cases hfx : f (s, x) with
    | none =>
      rw [List.filterMap_cons_none hfx] at h
      exact Nat.le_trans (Nat.le_succ s) (ih (s + 1) fd h)
    | some fd' =>
      rw [List.filterMap_cons_some hfx] at h
      rcases List.mem_cons.mp h with rfl | h'
      · exact Nat.le_of_eq (hf s x fd hfx).symm
      · exact Nat.le_trans (Nat.le_succ s) (ih (s + 1) fd h')

theorem filter_filterMap_enumLines (f : Nat × List Char → Option Finding)
    (hf : ∀ ln raw fd, f (ln, raw) = some fd → fd.line = ln) :
    ∀ (xs : List (List Char)) (s i : Nat) (hi : i < xs.length),
      List.filter (fun fd => fd.line == s + i) (List.filterMap f (enumLines s xs)) =
        (f (s + i, xs.get ⟨i, hi⟩)).toList := by
  intro xs
  induction xs with
  | nil => intro s i hi; exact absurd hi (Nat.not_lt_zero i)
  | cons x xs' ih =>
    intro s i hi
    cases i with
    | zero =>
      simp only [enumLines, Nat.add_zero, List.get]
      have hzero : ∀ fd ∈ List.filterMap f (enumLines (s + 1) xs'),
          ¬(fd.line == s) = true := by
        intro fd hmem hbeq
        have hge := mem_filterMap_enumLines_ge f hf xs' (s + 1) fd hmem
        have : fd.line = s := by simpa using hbeq
        omega
      cases hfx : f (s, x) with
      | none =>
        rw [List.filterMap_cons_none hfx]
        exact List.filter_eq_nil_iff.mpr hzero
      | some fd' =>
        rw [List.filterMap_cons_some hfx]
        have hline : (fun fd => fd.line == s) fd' = true := by simp [hf s x fd' hfx]
        rw [List.filter_cons_of_pos (p := fun (fd : Finding) => fd.line == s) hline]
        rw [List.filter_eq_nil_iff.mpr hzero]
        rfl
    | succ j =>
      have hj : j < xs'.length := Nat.lt_of_succ_lt_succ hi
      have hidx : s + (j + 1) = s + 1 + j := by omega
      simp only [enumLines, List.get]
      cases hfx : f (s, x) with
      | none =>
        rw [List.filterMap_cons_none hfx, hidx]
        exact ih (s + 1) j hj
      | some fd' =>
        rw [List.filterMap_cons_some hfx]
        have h1 : fd'.line = s := hf s x fd' hfx
        have hline : ¬((fun fd => fd.line == s + (j + 1)) fd' = true) := by
          simp [h1]
        rw [List.filter_cons_of_neg (p := fun (fd : Finding) => fd.line == s + (j + 1)) hline, hidx]
        exact ih (s + 1) j hj

theorem analyze_parts (R : RuleSet) (lines : List (List Char)) (i : Nat)
    (hi : i < lines.length) :
    ((analyze R lines).1.filter (fun fd => fd.line == 1 + i) =
      ((lineFindings R (1 + i) (lines.get ⟨i, hi⟩)).1).toList) ∧
    ((analyze R lines).2.1.filter (fun fd => fd.line == 1 + i) =
      ((lineFindings R (1 + i) (lines.get ⟨i, hi⟩)).2.1).toList) ∧
    ((analyze R lines).2.2.filter (fun fd => fd.line == 1 + i) =
      ((lineFindings R (1 + i) (lines.get ⟨i, hi⟩)).2.2).toList) := by
  refine ⟨?_, ?_, ?_⟩
  · exact filter_filterMap_enumLines (fun q => (lineFindings R q.1 q.2).1)
      (fun ln raw fd h => (lineFindings_fields (Or.inl h)).1) lines 1 i hi
  · exact filter_filterMap_enumLines (fun q => (lineFindings R q.1 q.2).2.1)
      (fun ln raw fd h => (lineFindings_fields (Or.inr (Or.inl h))).1) lines 1 i hi
  · exact filter_filterMap_enumLines (fun q => (lineFindings R q.1 q.2).2.2)
      (fun ln raw fd h => (lineFindings_fields (Or.inr (Or.inr h))).1) lines 1 i hi

/-- Claim C2: a line rejected by the timestamp gate contributes no
finding with its line number to any of the three lists. -/
theorem c2_gate_skip (R : RuleSet) (lines : List (List Char)) (i : Nat)
    (hi : i < lines.length)
    (hg : starts_with_date_and_timestamp (rstrip (lines.get ⟨i, hi⟩)) = false) :
    (analyze R lines).1.filter (fun fd => fd.line == 1 + i) = [] ∧
    (analyze R lines).2.1.filter (fun fd => fd.line == 1 + i) = [] ∧
    (analyze R lines).2.2.filter (fun fd => fd.line == 1 + i) = [] := by
  obtain ⟨h1, h2, h3⟩ := analyze_parts R lines i hi
  rw [lineFindings_gate_false hg] at h1 h2 h3
  exact ⟨by simpa using h1, by simpa using h2, by simpa using h3⟩

/-- Witness for C2: a line without a timestamp produces no finding even
though it contains ERROR and a failure keyword. -/
theorem c2_gate_skip_witness :
    (analyze
        (RuleSet.mk [] [String.toList "fail"] [String.toList "ERROR"] [String.toList "ERROR"])
        [String.toList "garbage no timestamp ERROR fail"]).1.filter
        (fun fd => fd.line == 1 + 0) = [] ∧
    (analyze
        (RuleSet.mk [] [String.toList "fail"] [String.toList "ERROR"] [String.toList "ERROR"])
        [String.toList "garbage no timestamp ERROR fail"]).2.1.filter
        (fun fd => fd.line == 1 + 0) = [] ∧
    (analyze
        (RuleSet.mk [] [String.toList "fail"] [String.toList "ERROR"] [String.toList "ERROR"])
        [String.toList "garbage no timestamp ERROR fail"]).2.2.filter
        (fun fd => fd.line == 1 + 0) = [] :=
  c2_gate_skip _ _ 0 (by decide) (by decide)

/-- Claim C7: a gated line whose level is in the configured noisy levels
produces exactly one noisy finding, with the stated reason and the
redacted text; a gated line whose level is not noisy produces none. -/
theorem c7_noisy_rule (R : RuleSet) (lines : List (List Char)) (i : Nat)
    (hi : i < lines.length)
    (hg : starts_with_date_and_timestamp (rstrip (lines.get ⟨i, hi⟩)) = true) :
    (analyze R lines).1.filter (fun fd => fd.line == 1 + i) =
      (if R.noisy_log_levels.contains (detect_level (rstrip (lines.get ⟨i, hi⟩))) then
        [⟨1 + i,
          redact_sensitive R.sensitive_patterns (rstrip (lines.get ⟨i, hi⟩)),
          String.toList "Noisy log level: " ++ detect_level (rstrip (lines.get ⟨i, hi⟩))⟩]
      else []) := by
  obtain ⟨h1, _, _⟩ := analyze_parts R lines i hi
  rw [h1]
  simp only [lineFindings, hg, if_true]
  rw [apply_ite Option.toList]
  rfl

/-- Witness for C7: an INFO line with noisy level INFO yields exactly
the expected noisy finding. -/
theorem c7_noisy_rule_witness :
    (analyze
        (RuleSet.mk [] [] [String.toList "INFO"] [String.toList "ERROR"])
        [String.toList "04:31:14 INFO booted"]).1.filter
        (fun fd => fd.line == 1 + 0) =
      [⟨1, String.toList "04:31:14 INFO booted", String.toList "Noisy log level: INFO"⟩] :=
  (c7_noisy_rule _ _ 0 (by decide) (by decide)).trans (by decide)

/-- Claim C5: a gated line matching at least one sensitive pattern
yields exactly one sensitive finding, also when several patterns match;
a gated line matching none yields no sensitive finding. -/
theorem c5_sensitive_dedup (R : RuleSet) (lines : List (List Char)) (i : Nat)
    (hi : i < lines.length)
    (hg : starts_with_date_and_timestamp (rstrip (lines.get ⟨i, hi⟩)) = true) :
    ((analyze R lines).2.1.filter (fun fd => fd.line == 1 + i)).length =
      (if R.sensitive_patterns.any (fun p => pySearch p (rstrip (lines.get ⟨i, hi⟩))) then 1
       else 0) := by
  obtain ⟨_, h2, _⟩ := analyze_parts R lines i hi
  rw [h2]
  simp only [lineFindings, hg, if_true]
  rw [apply_ite Option.toList, apply_ite List.length]
  rfl

/-- Witness for C5: a line matched by two distinct patterns yields one
sensitive finding, not two. -/
theorem c5_sensitive_dedup_witness :
    ((analyze
        (RuleSet.mk [litPat (String.toList "aa"), litPat (String.toList "bb")] [] [] [])
        [String.toList "04:31:14 aa bb"]).2.1.filter
        (fun fd => fd.line == 1 + 0)).length = 1 :=
  (c5_sensitive_dedup _ _ 0 (by decide) (by decide)).trans (by decide)

theorem any_eq_of {α : Type} {l : List α} {f g : α → Bool}
    (h : ∀ a ∈ l, f a = g a) : l.any f = l.any g := by
  induction l with
  | nil => rfl
  | cons a l' ih =>
    simp only [List.any_cons, h a (List.mem_cons_self a l'),
      ih (fun b hb => h b (List.mem_cons_of_mem a hb))]

theorem map_toLower_eq_self :
    ∀ k : List Char, (∀ c ∈ k, Char.toLower c = c) → pyLower k = k := by
  intro k
  induction k with
  | nil => intro _; rfl
  | cons c k' ih =>
    intro h
    have h1 : Char.toLower c = c := h c (List.mem_cons_self c k')
    have h2 : pyLower k' = k' := ih (fun b hb => h b (List.mem_cons_of_mem c hb))
    simp only [pyLower, List.map_cons] at h2 ⊢
    rw [h1, h2]

/-- Claim C4: on a gated line, with lowercase failure keywords, a
severity-violation finding is emitted exactly when some keyword occurs
case-insensitively in the line and the detected level is not among the
required severities; the reason names the required severity set. -/
theorem c4_severity_rule (R : RuleSet) (lines : List (List Char)) (i : Nat)
    (hi : i < lines.length)
    (hkw : ∀ k ∈ R.failure_keywords, ∀ c ∈ k, Char.toLower c = c)
    (hg : starts_with_date_and_timestamp (rstrip (lines.get ⟨i, hi⟩)) = true) :
    (analyze R lines).2.2.filter (fun fd => fd.line == 1 + i) =
      (if R.failure_keywords.any
            (fun k => occursIn (pyLower k) (pyLower (rstrip (lines.get ⟨i, hi⟩))))
          && !(R.required_severity_on_failure.contains
            (detect_level (rstrip (lines.get ⟨i, hi⟩)))) then
        [⟨1 + i, redact_sensitive R.sensitive_patterns (rstrip (lines.get ⟨i, hi⟩)),
          severityReason R⟩]
      else []) := by
  obtain ⟨_, _, h3⟩ := analyze_parts R lines i hi
  rw [h3]
  simp only [lineFindings, hg, if_true]
  have hany : R.failure_keywords.any
        (fun k => occursIn k (pyLower (rstrip (lines.get ⟨i, hi⟩)))) =
      R.failure_keywords.any
        (fun k => occursIn (pyLower k) (pyLower (rstrip (lines.get ⟨i, hi⟩)))) :=
    any_eq_of (fun k hk => by rw [map_toLower_eq_self k (hkw k hk)])
  rw [hany, apply_ite Option.toList]
  rfl

/-- Witness for C4: the line has keyword `timeout` at level INFO with
required severities ERROR, FATAL, so one severity violation is
reported. -/
theorem c4_severity_rule_witness :
    (analyze
        (RuleSet.mk [] [String.toList "fail", String.toList "timeout"] []
          [String.toList "ERROR", String.toList "FATAL"])
        [String.toList "04:31:14 INFO connection timeout"]).2.2.filter
        (fun fd => fd.line == 1 + 0) =
      [⟨1, String.toList "04:31:14 INFO connection timeout",
        String.toList "Failure logged without required severity: ERROR, FATAL"⟩] :=
  (c4_severity_rule _ _ 0 (by decide) (by decide) (by decide)).trans (by decide)

/-! ### Redaction: identity without matches, and idempotence -/

theorem pySubGo_nil (p : SensPattern) (fuel : Nat) (h : p.matchAt [] = none) :
    pySubGo p fuel [] = [] := by
  cases fuel <;> simp [pySubGo, h]

theorem pySearch_false_sub (p : SensPattern) :
    ∀ (fuel : Nat) (cs : List Char), pySearch p cs = false → pySubGo p fuel cs = cs := by
  intro fuel
  induction fuel with
  | zero =>
    intro cs h
    cases cs with
    | nil =>
      refine pySubGo_nil p 0 ?_
      cases hma : p.matchAt []
      · rfl
      · rw [show pySearch p [] = (p.matchAt []).isSome from rfl, hma] at h
        cases h
    | cons c rest => rfl
  | succ fuel ih =>
    intro cs h
    cases cs with
    | nil =>
      refine pySubGo_nil p (fuel + 1) ?_
      cases hma : p.matchAt []
      · rfl
      · rw [show pySearch p [] = (p.matchAt []).isSome from rfl, hma] at h
        cases h
    | cons c rest =>
      simp only [pySearch, Bool.or_eq_false_iff] at h
      obtain ⟨hhead, htail⟩ := h
      have hnone : p.matchAt (c :: rest) = none := by
        cases hma : p.matchAt (c :: rest)
        · rfl
        · rw [hma] at hhead; cases hhead
      simp [pySubGo, hnone, ih rest htail]

theorem redact_of_no_match :
    ∀ (pats : List SensPattern) (u : List Char),
      (∀ p ∈ pats, pySearch p u = false) → redact_sensitive pats u = u := by
  intro pats
  induction pats with
  | nil => intro u _; rfl
  | cons p pats' ih =>
    intro u h
    have h1 : pySub p u = u :=
      pySearch_false_sub p u.length u (h p (List.mem_cons_self p pats'))
    simp only [redact_sensitive, List.foldl_cons] at ih ⊢
    rw [h1]
    exact ih u (fun q hq => h q (List.mem_cons_of_mem p hq))

/-- Counterexample to claim C6 as stated: with patterns `]x` and `q`,
neither of which matches the literal token `[REDACTED]`, redacting the
text `qx` twice differs from redacting it once, because the second pass
matches `]x` across the boundary of the inserted token. -/
theorem c6_counterexample :
    pySearch (litPat (String.toList "]x")) (String.toList "[REDACTED]") = false ∧
    pySearch (litPat (String.toList "q")) (String.toList "[REDACTED]") = false ∧
    redact_sensitive [litPat (String.toList "]x"), litPat (String.toList "q")]
        (redact_sensitive [litPat (String.toList "]x"), litPat (String.toList "q")]
          (String.toList "qx")) ≠
      redact_sensitive [litPat (String.toList "]x"), litPat (String.toList "q")]
        (String.toList "qx") :=
  ⟨by decide, by decide, by decide⟩

/-- Claim C6 (amended): redaction is idempotent whenever no pattern
matches the once-redacted text, and redacting a text in which no
pattern matches returns it unchanged. -/
theorem c6_redact_idempotent (pats : List SensPattern) (t : List Char) :
    ((∀ p ∈ pats, pySearch p (redact_sensitive pats t) = false) →
      redact_sensitive pats (redact_sensitive pats t) = redact_sensitive pats t) ∧
    ((∀ p ∈ pats, pySearch p t = false) → redact_sensitive pats t = t) :=
  ⟨fun h => redact_of_no_match pats (redact_sensitive pats t) h,
   fun h => redact_of_no_match pats t h⟩

/-- Witness for C6: one literal pattern, a text redacted twice equals
the text redacted once. -/
theorem c6_redact_idempotent_witness :
    redact_sensitive [litPat (String.toList "zz")]
        (redact_sensitive [litPat (String.toList "zz")] (String.toList "a zz b")) =
      redact_sensitive [litPat (String.toList "zz")] (String.toList "a zz b") :=
  (c6_redact_idempotent [litPat (String.toList "zz")] (String.toList "a zz b")).1 (by decide)

/-! ### Uppercase failure keywords can never fire -/

theorem isPrefixOf_mem : ∀ {w u : List Char}, w.isPrefixOf u = true → ∀ c ∈ w, c ∈ u := by
  intro w
  induction w with
  | nil => intro u _ c hc; cases hc
  | cons a w' ih =>
    intro u h c hc
    cases u with
    | nil => simp [List.isPrefixOf] at h
    | cons b u' =>
      simp only [List.isPrefixOf, Bool.and_eq_true] at h
      obtain ⟨hab, hw⟩ := h
      have hab' : a = b := by simpa using hab
      rcases List.mem_cons.mp hc with rfl | hc'
      · rw [hab']; exact List.mem_cons_self b u'
      · exact List.mem_cons_of_mem b (ih hw c hc')

theorem occursIn_mem : ∀ {u w : List Char}, occursIn w u = true → ∀ c ∈ w, c ∈ u := by
  intro u
  induction u with
  | nil => intro w h c hc; exact isPrefixOf_mem h c hc
  | cons b u' ih =>
    intro w h c hc
    simp only [occursIn, Bool.or_eq_true] at h
    rcases h with h | h
    · exact isPrefixOf_mem h c hc
    · exact List.mem_cons_of_mem b (ih h c hc)

theorem ofNat_toNat_in {n : Nat} (h1 : 97 ≤ n) (h2 : n ≤ 122) :
    (Char.ofNat n).toNat = n := by
  have hv : n.isValidChar := Or.inl (by omega)
  simp [Char.ofNat, hv, Char.ofNatAux, Char.toNat]
  rfl

theorem toLower_not_upper (c : Char) :
    ¬('A' ≤ Char.toLower c ∧ Char.toLower c ≤ 'Z') := by
  rintro ⟨hl, hu⟩
  have hl' : 65 ≤ (Char.toLower c).toNat := hl
  have hu' : (Char.toLower c).toNat ≤ 90 := hu
  unfold Char.toLower at hl' hu'
  by_cases hc : 65 ≤ c.toNat ∧ c.toNat ≤ 90
  · rw [if_pos hc] at hl' hu'
    rw [ofNat_toNat_in (by omega) (by omega)] at hl' hu'
    omega
  · rw [if_neg hc] at hl' hu'
    exact hc ⟨hl', hu'⟩

theorem upper_keyword_no_match (k line : List Char)
    (h : ∃ c ∈ k, 'A' ≤ c ∧ c ≤ 'Z') :
    occursIn k (pyLower line) = false := by
  obtain ⟨c, hck, hcu⟩ := h
  cases hx : occursIn k (pyLower line)
  · rfl
  · exfalso
    have hmem : c ∈ pyLower line := occursIn_mem hx c hck
    obtain ⟨d, _, hde⟩ := List.mem_map.mp hmem
    exact toLower_not_upper d ⟨by rw [hde]; exact hcu.1, by rw [hde]; exact hcu.2⟩

/-- Claim C10: a failure keyword containing an uppercase character
never passes the lowercased substring test, so a rule set all of whose
failure keywords contain an uppercase character produces no severity
violation on any input. -/
theorem c10_uppercase_keyword :
    (∀ k line : List Char, (∃ c ∈ k, 'A' ≤ c ∧ c ≤ 'Z') →
      occursIn k (pyLower line) = false) ∧
    (∀ (R : RuleSet) (lines : List (List Char)),
      (∀ k ∈ R.failure_keywords, ∃ c ∈ k, 'A' ≤ c ∧ c ≤ 'Z') →
      (analyze R lines).2.2 = []) := by
  refine ⟨upper_keyword_no_match, ?_⟩
  intro R lines hupp
  have hnone : ∀ ln raw, (lineFindings R ln raw).2.2 = none := by
    intro ln raw
    by_cases hg : starts_with_date_and_timestamp (rstrip raw) = true
    · simp only [lineFindings, hg, if_true]
      have hany : R.failure_keywords.any
          (fun k => occursIn k (pyLower (rstrip raw))) = false := by
        rw [List.any_eq_false]
        intro k hk
        simp [upper_keyword_no_match k (rstrip raw) (hupp k hk)]
      rw [hany]
      simp
    · have hgf : starts_with_date_and_timestamp (rstrip raw) = false := by
        cases hx : starts_with_date_and_timestamp (rstrip raw)
        · rfl
        · exact absurd hx hg
      rw [lineFindings_gate_false hgf]
  exact List.filterMap_eq_nil_iff.mpr (fun q _ => hnone q.1 q.2)

/-- Witness for C10: the keyword `Fail` contains an uppercase letter,
so it never matches and the severity list stays empty. -/
theorem c10_uppercase_keyword_witness :
    occursIn (String.toList "Fail")
        (pyLower (String.toList "04:31:14 ERROR Fail fail FAIL")) = false ∧
    (analyze (RuleSet.mk [] [String.toList "Fail"] [] [])
        [String.toList "04:31:14 ERROR Fail fail FAIL"]).2.2 = [] :=
  ⟨c10_uppercase_keyword.1 (String.toList "Fail")
      (String.toList "04:31:14 ERROR Fail fail FAIL") (by decide),
   c10_uppercase_keyword.2 (RuleSet.mk [] [String.toList "Fail"] [] [])
      [String.toList "04:31:14 ERROR Fail fail FAIL"] (by decide)⟩

/-! ### No raw literal match survives redaction -/

theorem tokRED_cons : tokRED = '[' :: String.toList "REDACTED]" := rfl

theorem occursIn_nil_word (cs : List Char) : occursIn [] cs = true := by
  cases cs <;> simp [occursIn, List.isPrefixOf]

theorem occPrepend :
    ∀ (t : List Char) {w X : List Char}, w ≠ [] → (∀ c ∈ w, c ∉ t) →
      occursIn w (t ++ X) = occursIn w X := by
  intro t
  induction t with
  | nil => intro w X _ _; rfl
  | cons b t' ih =>
    intro w X hne hdis
    have hpre : w.isPrefixOf (b :: (t' ++ X)) = false := by
      cases w with
      | nil => exact absurd rfl hne
      | cons a w' =>
        have hab : ¬(a = b) := by
          intro he
          exact (hdis a (List.mem_cons_self a w')) (he ▸ List.mem_cons_self b t')
        simp [List.isPrefixOf, hab]
    have hstep : occursIn w ((b :: t') ++ X) =
        (w.isPrefixOf (b :: (t' ++ X)) || occursIn w (t' ++ X)) := rfl
    rw [hstep, hpre, Bool.false_or]
    exact ih hne (fun c hc hmem => hdis c hc (List.mem_cons_of_mem b hmem))

theorem not_isPrefixOf_tok {w : List Char} (hw : ∀ c ∈ w, c ∉ tokRED) :
    ∀ X, w.isPrefixOf (tokRED ++ X) = true → w = [] := by
  intro X h
  cases w with
  | nil => rfl
  | cons a w' =>
    exfalso
    rw [tokRED_cons] at h
    simp only [List.cons_append, List.isPrefixOf, Bool.and_eq_true] at h
    have ha : a = '[' := by simpa using h.1
    exact (hw a (List.mem_cons_self a w'))
      (by rw [ha, tokRED_cons]; exact List.mem_cons_self _ _)

theorem prefixThroughSub (p : SensPattern) :
    ∀ (fuel : Nat) (cs : List Char) {u : List Char}, (∀ c ∈ u, c ∉ tokRED) →
      u.isPrefixOf (pySubGo p fuel cs) = true → u.isPrefixOf cs = true := by
  intro fuel
  induction fuel with
  | zero =>
    intro cs u hu h
    cases cs with
    | nil =>
      cases hma : p.matchAt [] with
      | none =>
        rw [show pySubGo p 0 [] = [] from by simp [pySubGo, hma]] at h
        exact h
      | some n =>
        rw [show pySubGo p 0 [] = tokRED from by simp [pySubGo, hma]] at h
        rw [not_isPrefixOf_tok hu [] (by rw [List.append_nil]; exact h)]
        simp [List.isPrefixOf]
    | cons c rest => exact h
  | succ fuel ih =>
    intro cs u hu h
    cases cs with
    | nil =>
      cases hma : p.matchAt [] with
      | none =>
        rw [show pySubGo p (fuel + 1) [] = [] from by simp [pySubGo, hma]] at h
        exact h
      | some n =>
        rw [show pySubGo p (fuel + 1) [] = tokRED from by simp [pySubGo, hma]] at h
        rw [not_isPrefixOf_tok hu [] (by rw [List.append_nil]; exact h)]
        simp [List.isPrefixOf]
    | cons c rest =>
      cases hma : p.matchAt (c :: rest) with
      | none =>
        rw [show pySubGo p (fuel + 1) (c :: rest) = c :: pySubGo p fuel rest from by
          simp [pySubGo, hma]] at h
        cases u with
        | nil => simp [List.isPrefixOf]
        | cons a u' =>
          simp only [List.isPrefixOf, Bool.and_eq_true] at h ⊢
          exact ⟨h.1, ih rest
            (fun x hx => hu x (List.mem_cons_of_mem a hx)) h.2⟩
      | some n =>
        cases n with
        | zero =>
          rw [show pySubGo p (fuel + 1) (c :: rest) =
              tokRED ++ (c :: pySubGo p fuel rest) from by simp [pySubGo, hma]] at h
          rw [not_isPrefixOf_tok hu _ h]
          simp [List.isPrefixOf]
        | succ k =>
          rw [show pySubGo p (fuel + 1) (c :: rest) =
              tokRED ++ pySubGo p fuel (List.drop k rest) from by simp [pySubGo, hma]] at h
          rw [not_isPrefixOf_tok hu _ h]
          simp [List.isPrefixOf]

theorem occursIn_drop {w : List Char} :
    ∀ (cs : List Char) (j : Nat), occursIn w (List.drop j cs) = true →
      occursIn w cs = true := by
  intro cs
  induction cs with
  | nil => intro j h; simpa using h
  | cons c rest ih =>
    intro j h
    cases j with
    | zero => simpa using h
    | succ j' =>
      have htail : occursIn w rest = true := ih j' (by simpa using h)
      simp [occursIn, htail]

theorem occ_sub_rev {w : List Char} (hw : ∀ c ∈ w, c ∉ tokRED) (p : SensPattern) :
    ∀ (fuel : Nat) (cs : List Char), occursIn w (pySubGo p fuel cs) = true →
      occursIn w cs = true := by
  by_cases hwnil : w = []
  · intro fuel cs _
    rw [hwnil]
    exact occursIn_nil_word cs
  · intro fuel
    induction fuel with
    | zero =>
      intro cs h
      cases cs with
      | nil =>
        cases hma : p.matchAt [] with
        | none =>
          rw [show pySubGo p 0 [] = [] from by simp [pySubGo, hma]] at h
          exact h
        | some n =>
          rw [show pySubGo p 0 [] = tokRED from by simp [pySubGo, hma]] at h
          rw [show tokRED = tokRED ++ [] from by rw [List.append_nil]] at h
          rw [occPrepend tokRED hwnil hw] at h
          cases w with
          | nil => exact absurd rfl hwnil
          | cons a w' => simp [occursIn, List.isPrefixOf] at h
      | cons c rest => exact h
    | succ fuel ih =>
      intro cs h
      cases cs with
      | nil =>
        cases hma : p.matchAt [] with
        | none =>
          rw [show pySubGo p (fuel + 1) [] = [] from by simp [pySubGo, hma]] at h
          exact h
        | some n =>
          rw [show pySubGo p (fuel + 1) [] = tokRED from by simp [pySubGo, hma]] at h
          rw [show tokRED = tokRED ++ [] from by rw [List.append_nil]] at h
          rw [occPrepend tokRED hwnil hw] at h
          cases w with
          | nil => exact absurd rfl hwnil
          | cons a w' => simp [occursIn, List.isPrefixOf] at h
      | cons c rest =>
        have hcons : ∀ Y : List Char, occursIn w (c :: Y) = true →
            (w.isPrefixOf (c :: Y) = true ∨ occursIn w Y = true) := by
          intro Y hY
          simpa [occursIn, Bool.or_eq_true] using hY
        cases hma : p.matchAt (c :: rest) with
        | none =>
          rw [show pySubGo p (fuel + 1) (c :: rest) = c :: pySubGo p fuel rest from by
            simp [pySubGo, hma]] at h
          rcases hcons _ h with hpre | htail
          · have hpre' : w.isPrefixOf (c :: rest) = true := by
              cases w with
              | nil => simp [List.isPrefixOf]
              | cons a w' =>
                simp only [List.isPrefixOf, Bool.and_eq_true] at hpre ⊢
                exact ⟨hpre.1, prefixThroughSub p fuel rest
                  (fun x hx => hw x (List.mem_cons_of_mem a hx)) hpre.2⟩
            simp [occursIn, hpre']
          · simp [occursIn, ih rest htail]
        | some n =>
          cases n with
          | zero =>
            rw [show pySubGo p (fuel + 1) (c :: rest) =
                tokRED ++ (c :: pySubGo p fuel rest) from by simp [pySubGo, hma]] at h
            rw [occPrepend tokRED hwnil hw] at h
            rcases hcons _ h with hpre | htail
            · have hpre' : w.isPrefixOf (c :: rest) = true := by
                cases w with
                | nil => simp [List.isPrefixOf]
                | cons a w' =>
                  simp only [List.isPrefixOf, Bool.and_eq_true] at hpre ⊢
                  exact ⟨hpre.1, prefixThroughSub p fuel rest
                    (fun x hx => hw x (List.mem_cons_of_mem a hx)) hpre.2⟩
              simp [occursIn, hpre']
            · simp [occursIn, ih rest htail]
          | succ k =>
            rw [show pySubGo p (fuel + 1) (c :: rest) =
                tokRED ++ pySubGo p fuel (List.drop k rest) from by simp [pySubGo, hma]] at h
            rw [occPrepend tokRED hwnil hw] at h
            have hdrop : occursIn w (List.drop k rest) = true := ih (List.drop k rest) h
            have htail : occursIn w rest = true := occursIn_drop rest k hdrop
            simp [occursIn, htail]

theorem pySubGo_cons_none (p : SensPattern) (fuel : Nat) (c : Char) (rest : List Char)
    (h : p.matchAt (c :: rest) = none) :
    pySubGo p (fuel + 1) (c :: rest) = c :: pySubGo p fuel rest := by
  simp [pySubGo, h]

theorem pySubGo_cons_succ (p : SensPattern) (fuel : Nat) (c : Char) (rest : List Char)
    (k : Nat) (h : p.matchAt (c :: rest) = some (k + 1)) :
    pySubGo p (fuel + 1) (c :: rest) = tokRED ++ pySubGo p fuel (List.drop k rest) := by
  simp [pySubGo, h]

theorem lit_sub_no_occ {w : List Char} (hne : w ≠ []) (hw : ∀ c ∈ w, c ∉ tokRED) :
    ∀ (fuel : Nat) (cs : List Char), cs.length ≤ fuel →
      occursIn w (pySubGo (litPat w) fuel cs) = false := by
  have hprefnil : ¬(w.isPrefixOf [] = true) := by
    cases w with
    | nil => exact absurd rfl hne
    | cons a w' => intro hx; cases hx
  have hnilsub : ∀ fuel : Nat, pySubGo (litPat w) fuel [] = [] := by
    intro fuel
    refine pySubGo_nil (litPat w) fuel ?_
    show (if w.isPrefixOf [] then some w.length else none) = none
    rw [if_neg hprefnil]
  have hnilocc : occursIn w [] = false := by
    cases hx : occursIn w []
    · rfl
    · exact absurd (show w.isPrefixOf [] = true from hx) hprefnil
  intro fuel
  induction fuel with
  | zero =>
    intro cs hlen
    have hcs : cs = [] := List.length_eq_zero.mp (Nat.le_zero.mp hlen)
    rw [hcs, hnilsub 0]
    exact hnilocc
  | succ fuel ih =>
    intro cs hlen
    cases cs with
    | nil =>
      rw [hnilsub (fuel + 1)]
      exact hnilocc
    | cons c rest =>
      by_cases hpre : w.isPrefixOf (c :: rest) = true
      · obtain ⟨a, wtl, rfl⟩ : ∃ a wtl, w = a :: wtl := by
          cases w with
          | nil => exact absurd rfl hne
          | cons a wtl => exact ⟨a, wtl, rfl⟩
        have hma : (litPat (a :: wtl)).matchAt (c :: rest) = some (wtl.length + 1) := by
          show (if (a :: wtl).isPrefixOf (c :: rest) then some (a :: wtl).length else none) =
            some (wtl.length + 1)
          rw [if_pos hpre]
          rfl
        rw [pySubGo_cons_succ _ _ _ _ _ hma, occPrepend tokRED hne hw]
        refine ih (List.drop wtl.length rest) ?_
        have hr : rest.length ≤ fuel := Nat.le_of_succ_le_succ hlen
        calc (List.drop wtl.length rest).length ≤ rest.length := by
              rw [List.length_drop]; omega
          _ ≤ fuel := hr
      · have hma : (litPat w).matchAt (c :: rest) = none := by
          show (if w.isPrefixOf (c :: rest) then some w.length else none) = none
          rw [if_neg hpre]
        rw [pySubGo_cons_none _ _ _ _ hma]
        have htail : occursIn w (pySubGo (litPat w) fuel rest) = false :=
          ih rest (Nat.le_of_succ_le_succ hlen)
        have hprefY : w.isPrefixOf (c :: pySubGo (litPat w) fuel rest) = false := by
          cases hx : w.isPrefixOf (c :: pySubGo (litPat w) fuel rest)
          · rfl
          · exfalso
            refine hpre ?_
            cases w with
            | nil => rfl
            | cons a w' =>
              simp only [List.isPrefixOf, Bool.and_eq_true] at hx ⊢
              exact ⟨hx.1, prefixThroughSub (litPat (a :: w')) fuel rest
                (fun x hmx => hw x (List.mem_cons_of_mem a hmx)) hx.2⟩
        show (w.isPrefixOf (c :: pySubGo (litPat w) fuel rest)
          || occursIn w (pySubGo (litPat w) fuel rest)) = false
        rw [hprefY, htail]
        rfl

theorem redact_preserves_no_occ {w : List Char} (hw : ∀ c ∈ w, c ∉ tokRED) :
    ∀ (pats : List SensPattern) (u : List Char), occursIn w u = false →
      occursIn w (redact_sensitive pats u) = false := by
  intro pats
  induction pats with
  | nil => intro u h; exact h
  | cons p pats' ih =>
    intro u h
    have h1 : occursIn w (pySub p u) = false := by
      cases hx : occursIn w (pySub p u)
      · rfl
      · exfalso
        have := occ_sub_rev hw p u.length u hx
        rw [this] at h
        cases h
    simp only [redact_sensitive, List.foldl_cons] at ih ⊢
    exact ih (pySub p u) h1

theorem redact_removes_lit {w : List Char} (hne : w ≠ []) (hw : ∀ c ∈ w, c ∉ tokRED) :
    ∀ (pats : List SensPattern) (t : List Char), litPat w ∈ pats →
      occursIn w (redact_sensitive pats t) = false := by
  intro pats
  induction pats with
  | nil => intro t h; cases h
  | cons p pats' ih =>
    intro t hmem
    simp only [redact_sensitive, List.foldl_cons]
    rcases List.mem_cons.mp hmem with heq | hmem'
    · have h1 : occursIn w (pySub p t) = false := by
        rw [← heq]
        exact lit_sub_no_occ hne hw t.length t (Nat.le_refl _)
      have := redact_preserves_no_occ hw pats' (pySub p t) h1
      simpa [redact_sensitive] using this
    · have := ih (pySub p t) hmem'
      simpa [redact_sensitive] using this

theorem pySearch_litPat (w : List Char) : ∀ cs, pySearch (litPat w) cs = occursIn w cs := by
  intro cs
  induction cs with
  | nil =>
    show ((if w.isPrefixOf [] then some w.length else none) : Option Nat).isSome =
      w.isPrefixOf []
    by_cases h : w.isPrefixOf [] = true
    · rw [if_pos h, h]; rfl
    · rw [if_neg h]
      cases hx : w.isPrefixOf []
      · rfl
      · exact absurd hx h
  | cons c rest ih =>
    show (((if w.isPrefixOf (c :: rest) then some w.length else none) : Option Nat).isSome
        || pySearch (litPat w) rest) = (w.isPrefixOf (c :: rest) || occursIn w rest)
    rw [ih]
    by_cases h : w.isPrefixOf (c :: rest) = true
    · rw [if_pos h, h]; rfl
    · rw [if_neg h]
      cases hx : w.isPrefixOf (c :: rest)
      · rfl
      · exact absurd hx h

/-- Counterexample to claim C1 as stated: with the single-letter
pattern `E`, the emitted sensitive finding carries redacted text
containing `E` inside the inserted literal token `[REDACTED]`. -/
theorem c1_counterexample :
    ∃ fd ∈ (analyze (RuleSet.mk [litPat (String.toList "E")] [] [] [])
        [String.toList "04:31:14 E"]).2.1,
      pySearch (litPat (String.toList "E")) fd.log = true := by
  decide

/-- Claim C1 (amended): when every configured sensitive pattern is a
nonempty literal string sharing no character with the token
`[REDACTED]`, no finding emitted into any of the three lists carries a
raw match of any configured pattern in its redacted text. -/
theorem c1_no_raw_match (R : RuleSet) (lines : List (List Char))
    (hgood : ∀ p ∈ R.sensitive_patterns, goodLit p) :
    ∀ fd : Finding,
      (fd ∈ (analyze R lines).1 ∨ fd ∈ (analyze R lines).2.1 ∨
        fd ∈ (analyze R lines).2.2) →
      ∀ p ∈ R.sensitive_patterns, pySearch p fd.log = false := by
  intro fd hmem p hp
  obtain ⟨w, rfl, hne, hw⟩ := hgood p hp
  have hlog : ∃ raw : List Char,
      fd.log = redact_sensitive R.sensitive_patterns (rstrip raw) := by
    rcases hmem with h | h | h
    · obtain ⟨q, _, hfq⟩ := List.mem_filterMap.mp h
      exact ⟨q.2, (lineFindings_fields (Or.inl hfq)).2⟩
    · obtain ⟨q, _, hfq⟩ := List.mem_filterMap.mp h
      exact ⟨q.2, (lineFindings_fields (Or.inr (Or.inl hfq))).2⟩
    · obtain ⟨q, _, hfq⟩ := List.mem_filterMap.mp h
      exact ⟨q.2, (lineFindings_fields (Or.inr (Or.inr hfq))).2⟩
  obtain ⟨raw, hlog⟩ := hlog
  rw [hlog, pySearch_litPat]
  exact redact_removes_lit hne hw R.sensitive_patterns (rstrip raw) hp

/-- Witness for C1: the digit pattern `1234` is fully removed from the
emitted sensitive finding. -/
theorem c1_no_raw_match_witness :
    (Finding.mk 1 (String.toList "04:31:14 card [REDACTED]")
        (String.toList "Sensitive / PII data detected")) ∈
      (analyze (RuleSet.mk [litPat (String.toList "1234")] [] [] [])
        [String.toList "04:31:14 card 1234"]).2.1 ∧
    pySearch (litPat (String.toList "1234"))
      (Finding.mk 1 (String.toList "04:31:14 card [REDACTED]")
        (String.toList "Sensitive / PII data detected")).log = false :=
  ⟨by decide,
   c1_no_raw_match
    (RuleSet.mk [litPat (String.toList "1234")] [] [] [])
    [String.toList "04:31:14 card 1234"]
    (by
      intro p hp
      rw [List.mem_singleton] at hp
      rw [hp]
      exact ⟨String.toList "1234", rfl, by decide, by decide⟩)
    (Finding.mk 1 (String.toList "04:31:14 card [REDACTED]")
      (String.toList "Sensitive / PII data detected"))
    (Or.inr (Or.inl (by decide)))
    (litPat (String.toList "1234")) (List.mem_singleton.mpr rfl)⟩
